import Mathlib

/-!
Verification development for the `cousine-web` voice/text chat system.

The repository has two relevant source units:
* `server.js` — the signaling relay hub: channel rosters, identity
  registry, join/part/disconnect handling, ICE-candidate and
  session-description relay, chat and status broadcasts;
* the client script — per-peer session management (`handleAddPeer`)
  and the SDP bitrate-policy rewrite (`setAudioBitrate`).

We embed the state-manipulating parts of both shallowly: JavaScript
objects (string-keyed, insertion-ordered) become association lists,
socket emissions become an explicit list of `(targetId, event)` pairs
returned alongside the new state, and `setAudioBitrate`'s line scan over
the CRLF-split SDP text is reproduced over `List Char` lines.
-/

/-! ## Association-list kit

JavaScript objects keyed by strings, with insertion-ordered keys.
`lookupKey` finds the value for a key; `setEntry` mirrors property
assignment (replace in place if present, append otherwise); `removeKey`
mirrors the `delete` operator; `hasElem`, `removeElem`, `addKey` are the
analogous operations for rosters whose keys alone matter. -/

def lookupKey {β : Type} (k : String) : List (String × β) → Option β
  | [] => none
  | p :: ps => if p.1 = k then some p.2 else lookupKey k ps

def setEntry {β : Type} (k : String) (v : β) : List (String × β) → List (String × β)
  | [] => [(k, v)]
  | p :: ps => if p.1 = k then (k, v) :: ps else p :: setEntry k v ps

def removeKey {β : Type} (k : String) : List (String × β) → List (String × β)
  | [] => []
  | p :: ps => if p.1 = k then removeKey k ps else p :: removeKey k ps

def hasElem (k : String) : List String → Bool
  | [] => false
  | x :: xs => x = k || hasElem k xs

def removeElem (k : String) : List String → List String
  | [] => []
  | x :: xs => if x = k then removeElem k xs else x :: removeElem k xs

/-- Object-key insertion: a no-op when the key is already present
(JavaScript re-assignment of the same value keeps key order), an append
at the end otherwise. -/
def addKey (k : String) (l : List String) : List String :=
  if hasElem k l then l else l ++ [k]

/-! ## Relay hub (server.js)

Global registries of `server.js`:
`channels` (channel name → members, insertion order = join order),
per-socket `socket.channels` (the channels a connection belongs to),
`sockets` (tracked connection ids) and `usernames`. Mutation of a
registry plus `socket.emit` calls is modelled as a function
`ServerState → args → ServerState × List (String × SigEvent)`, the list
holding the emitted events, in order, tagged with the receiving
connection id. -/

/-- The events the server emits to clients (`server.js`). Payloads that
the server never inspects (ICE candidates, session descriptions) are
kept opaque as strings. -/
inductive SigEvent where
  | addPeer (peer_id username : String) (should_create_offer : Bool)
  | removePeer (peer_id : String)
  | userList (users : List (String × String))
  | chatMessage (peer_id username message : String) (timestamp : Nat)
  | iceCandidate (peer_id ice_candidate : String)
  | sessionDescription (peer_id session_description : String)
  | peerMuteStatus (peer_id : String) (isMuted : Bool)
  | peerSpeakingStatus (peer_id : String) (isSpeaking : Bool)
deriving DecidableEq

/-- The server's mutable registries (`server.js` lines 50–53 plus the
per-socket `socket.channels` map, flattened into one record). -/
structure ServerState where
  channels : List (String × List String)
  socketChannels : List (String × List String)
  sockets : List String
  usernames : List (String × String)
deriving DecidableEq

/-- `usernames[id] || id.slice(0, 6)` — the display-name fallback used
throughout `server.js` (an empty stored string is falsy in JS). -/
def usernameOf (m : List (String × String)) (id : String) : String :=
  match lookupKey id m with
  | some u => if u = "" then id.take 6 else u
  | none => id.take 6

/-- The channels a connection currently belongs to (`socket.channels`). -/
def sockChansOf (s : ServerState) (sid : String) : List String :=
  (lookupKey sid s.socketChannels).getD []

/-- The members of a channel (`channels[channel]`), empty if absent. -/
def rosterOf (s : ServerState) (channel : String) : List String :=
  (lookupKey channel s.channels).getD []

/-- The username store step of the `join` handler (`server.js` lines
123–126): a truthy `userdata.username` overwrites the connection's
stored username. -/
def joinUsernames (s : ServerState) (sid : String) (udUsername : Option String) :
    List (String × String) :=
  match udUsername with
  | some u => if u = "" then s.usernames else setEntry sid u s.usernames
  | none => s.usernames

/-- The `join` handler (`server.js` lines 102–155): guard on a falsy
channel name, guard on double join, lazy channel creation, optional
username store, the interleaved `addPeer` notifications (existing
member first, newcomer second, per existing member, in roster order),
roster insertion, and the final `userList` emission to the newcomer. -/
def joinOp (s : ServerState) (sid channel : String) (udUsername : Option String) :
    ServerState × List (String × SigEvent) :=
  if channel = "" then (s, [])
  else if hasElem channel (sockChansOf s sid) then (s, [])
  else
    let chans0 := if (lookupKey channel s.channels).isSome then s.channels
                  else s.channels ++ [(channel, [])]
    let unames := joinUsernames s sid udUsername
    let existing := (lookupKey channel chans0).getD []
    let notifications := existing.flatMap (fun id =>
      [(id, SigEvent.addPeer sid (usernameOf unames sid) false),
       (sid, SigEvent.addPeer id (usernameOf unames id) true)])
    let newRoster := addKey sid existing
    let userList := newRoster.map (fun id => (id, usernameOf unames id))
    ({ channels := setEntry channel newRoster chans0,
       socketChannels := setEntry sid (addKey channel (sockChansOf s sid)) s.socketChannels,
       sockets := s.sockets,
       usernames := unames },
     notifications ++ [(sid, SigEvent.userList userList)])

/-- The `part` function (`server.js` lines 158–179): guard on
non-membership, removal from `socket.channels` and from the channel
roster, interleaved `removePeer` notifications (remaining member first,
leaver second, per remaining member), and deletion of the channel when
its roster became empty. -/
def partOp (s : ServerState) (sid channel : String) :
    ServerState × List (String × SigEvent) :=
  if hasElem channel (sockChansOf s sid) = false then (s, [])
  else
    let remaining := removeElem sid (rosterOf s channel)
    let notifications := remaining.flatMap (fun id =>
      [(id, SigEvent.removePeer sid), (sid, SigEvent.removePeer id)])
    let chans1 := setEntry channel remaining s.channels
    ({ channels := if remaining = [] then removeKey channel chans1 else chans1,
       socketChannels := setEntry sid (removeElem channel (sockChansOf s sid)) s.socketChannels,
       sockets := s.sockets,
       usernames := s.usernames },
     notifications)

/-- Sequential `part` over a list of channels, accumulating events. -/
def partAll (s : ServerState) (sid : String) : List String → ServerState × List (String × SigEvent)
  | [] => (s, [])
  | ch :: rest =>
    let r1 := partOp s sid ch
    let r2 := partAll r1.1 sid rest
    (r2.1, r1.2 ++ r2.2)

/-- The `disconnect` handler (`server.js` lines 66–73): `part` every
channel in `socket.channels` (the loop deletes exactly the key being
visited, so it traverses the keys present when it starts), then delete
the `sockets` and `usernames` entries. -/
def disconnectOp (s : ServerState) (sid : String) : ServerState × List (String × SigEvent) :=
  let r := partAll s sid (sockChansOf s sid)
  ({ channels := r.1.channels,
     socketChannels := r.1.socketChannels,
     sockets := removeElem sid r.1.sockets,
     usernames := removeKey sid r.1.usernames },
   r.2)

/-- Removal of a connection's identity mapping (its `sockets` and
`usernames` entries), as the spec words it. -/
def purgeIdentity (s : ServerState) (sid : String) : ServerState :=
  { s with sockets := removeElem sid s.sockets, usernames := removeKey sid s.usernames }

/-- Modelled from the spec: `disconnect(connectionId)` as the spec
describes it — "calling `leave` for every channel the connection
belongs to, then purging its identity mapping" — written as the left
fold of the leave operation over the connection's channel list,
followed by `purgeIdentity`. -/
def disconnectSpec (s : ServerState) (sid : String) : ServerState × List (String × SigEvent) :=
  let r := (sockChansOf s sid).foldl
    (fun acc ch =>
      let r1 := partOp acc.1 sid ch
      (r1.1, acc.2 ++ r1.2))
    (s, [])
  (purgeIdentity r.1 sid, r.2)

/-- The `relayICECandidate` handler (`server.js` lines 183–193): if the
target id is tracked, forward the candidate annotated with the sender's
id; otherwise do nothing. State is never modified. -/
def relayICECandidateOp (s : ServerState) (sid peer_id ice_candidate : String) :
    ServerState × List (String × SigEvent) :=
  if hasElem peer_id s.sockets then
    (s, [(peer_id, SigEvent.iceCandidate sid ice_candidate)])
  else (s, [])

/-- The `relaySessionDescription` handler (`server.js` lines 196–210):
same shape as the candidate relay. -/
def relaySessionDescriptionOp (s : ServerState) (sid peer_id session_description : String) :
    ServerState × List (String × SigEvent) :=
  if hasElem peer_id s.sockets then
    (s, [(peer_id, SigEvent.sessionDescription sid session_description)])
  else (s, [])

/-- The `chatMessage` handler (`server.js` lines 82–99): guard on a
falsy channel or an unregistered channel, then broadcast to every
member of the channel, the sender included. `Date.now()` is passed in
as `ts`. -/
def chatMessageOp (s : ServerState) (sid channel message : String) (ts : Nat) :
    ServerState × List (String × SigEvent) :=
  if channel = "" then (s, [])
  else
    match lookupKey channel s.channels with
    | none => (s, [])
    | some roster =>
      (s, roster.map (fun id =>
        (id, SigEvent.chatMessage sid (usernameOf s.usernames sid) message ts)))

/-- The `muteStatus` handler (`server.js` lines 213–227): broadcast to
every member of the channel except the sender. -/
def muteStatusOp (s : ServerState) (sid channel : String) (isMuted : Bool) :
    ServerState × List (String × SigEvent) :=
  if channel = "" then (s, [])
  else
    match lookupKey channel s.channels with
    | none => (s, [])
    | some roster =>
      (s, (roster.filter (fun id => id ≠ sid)).map (fun id =>
        (id, SigEvent.peerMuteStatus sid isMuted)))

/-- The `speakingStatus` handler (`server.js` lines 230–244): same
delivery set as `muteStatus`. -/
def speakingStatusOp (s : ServerState) (sid channel : String) (isSpeaking : Bool) :
    ServerState × List (String × SigEvent) :=
  if channel = "" then (s, [])
  else
    match lookupKey channel s.channels with
    | none => (s, [])
    | some roster =>
      (s, (roster.filter (fun id => id ≠ sid)).map (fun id =>
        (id, SigEvent.peerSpeakingStatus sid isSpeaking)))

/-- The channel-registry invariant of claim C7: every registered channel
has at least one member. -/
def ChannelsNonempty (s : ServerState) : Prop :=
  ∀ p ∈ s.channels, p.2 ≠ []

/-! ## Client: peer-session creation (`handleAddPeer`)

The client keeps a `peers` map (peer id → `RTCPeerConnection`) and a
per-peer UI entry. `handleAddPeer` returns early when the peer id is
already known; otherwise it constructs a new connection object with the
fixed configuration of the source, adds the local stream's tracks, and
registers the peer in the map and the UI. The asynchronous offer flow
that follows when `should_create_offer` is set only exchanges messages
and does not alter the `peers` map, so it is outside this state model. -/

/-- The slice of an `RTCPeerConnection` object that `handleAddPeer`
determines: its construction options and the local tracks added to it. -/
structure RTCPeerConn where
  iceCandidatePoolSize : Nat
  bundlePolicy : String
  rtcpMuxPolicy : String
  tracks : List String
deriving DecidableEq

/-- Client-side state touched by `handleAddPeer`: the `peers` registry,
the peers list UI entries (`addPeerToUI` keys them by peer id), and the
local media stream's track list (`none` when no stream was acquired). -/
structure ClientState where
  peers : List (String × RTCPeerConn)
  peerUI : List (String × String)
  localStreamTracks : Option (List String)
deriving DecidableEq

/-- `addPeerToUI` (client script): skipped when an element for the peer
already exists, appended otherwise. -/
def addPeerToUI (peerId username : String) (ui : List (String × String)) :
    List (String × String) :=
  if (lookupKey peerId ui).isSome then ui else ui ++ [(peerId, username)]

/-- `handleAddPeer` (client script lines 433–519), state part: the
duplicate guard (`if (peers[peerId]) return`), then creation of one
peer connection with the source's fixed options, track attachment, and
registration in `peers` and the UI. -/
def handleAddPeer (st : ClientState) (peer_id username : String) : ClientState :=
  if (lookupKey peer_id st.peers).isSome then st
  else
    let peerUsername := if username = "" then peer_id.take 6 else username
    let pc : RTCPeerConn :=
      { iceCandidatePoolSize := 2,
        bundlePolicy := "max-bundle",
        rtcpMuxPolicy := "require",
        tracks := st.localStreamTracks.getD [] }
    { st with
      peers := setEntry peer_id pc st.peers,
      peerUI := addPeerToUI peer_id peerUsername st.peerUI }

/-! ## SDP bitrate policy (`setAudioBitrate`)

`setAudioBitrate(sdp, bitrate)` splits the SDP text on `"\r\n"`, scans
the lines by index, pushes each line to the result, inserts a
`b=TIAS:<bitrate>` line right after every line starting with
`m=audio`, and for every line containing `opus/48000` whose payload
type is found by the pattern `a=rtpmap:(\d+) opus`, mutates (in the
line array itself) the first later line starting with `a=fmtp:<pt>` by
appending the bitrate parameters — unless that line already contains
`maxaveragebitrate`. The scan is reproduced over `List Char` lines;
the index loop bound (the mutation-invariant array length) becomes the
structural fuel of `processLines`. The sample rate read from the global
`CONFIG.quality[selectedQuality].sampleRate` is an explicit argument. -/

/-- One decimal digit as a character: `0 ↦ '0'`, …, `9 ↦ '9'`. -/
def decDigit (d : Nat) : Char :=
  Char.ofNat (48 + d % 10)

/-- Digit accumulation for `natChars`; the fuel bounds the number of
divisions by ten and is seeded with `n + 1`, which always suffices. -/
def natCharsAux : Nat → Nat → List Char → List Char
  | 0, _, acc => acc
  | fuel + 1, n, acc =>
    if n / 10 = 0 then decDigit n :: acc
    else natCharsAux fuel (n / 10) (decDigit n :: acc)

/-- Decimal rendering of a natural number, as JavaScript template
interpolation renders a nonnegative integer. -/
def natChars (n : Nat) : List Char :=
  natCharsAux (n + 1) n []

/-- JavaScript `String.prototype.includes`: `pat` occurs contiguously
somewhere in the line. -/
def hasSub (pat : List Char) : List Char → Bool
  | [] => pat.isEmpty
  | c :: cs => pat.isPrefixOf (c :: cs) || hasSub pat cs

/-- The regex `a=rtpmap:(\d+) opus` tried at the start of `l`: the
literal prefix, then a maximal nonempty digit run, then `" opus"`.
Returns the captured digits. -/
def rtpmapHere (l : List Char) : Option (List Char) :=
  if ("a=rtpmap:".data).isPrefixOf l then
    if ((l.drop ("a=rtpmap:".data).length).takeWhile Char.isDigit).isEmpty then none
    else if (" opus".data).isPrefixOf
        ((l.drop ("a=rtpmap:".data).length).drop
          ((l.drop ("a=rtpmap:".data).length).takeWhile Char.isDigit).length) then
      some ((l.drop ("a=rtpmap:".data).length).takeWhile Char.isDigit)
    else none
  else none

/-- Leftmost match of `a=rtpmap:(\d+) opus` in a line (JavaScript
`String.prototype.match` semantics: the digit run is maximal, and a
failed continuation moves the match position rightwards). -/
def findPt : List Char → Option (List Char)
  | [] => none
  | c :: cs =>
    match rtpmapHere (c :: cs) with
    | some ds => some ds
    | none => findPt cs

/-- The parameter block appended to the Opus `a=fmtp:` line. -/
def fmtpSuffix (bitrate sampleRate : Nat) : List Char :=
  ";maxaveragebitrate=".data ++ natChars bitrate ++
  ";maxplaybackrate=".data ++ natChars sampleRate ++
  ";useinbandfec=1;usedtx=1;cbr=0".data

/-- The conditional fmtp mutation: append the parameter block unless a
`maxaveragebitrate` parameter is already present. -/
def updateFmtp (suffix l : List Char) : List Char :=
  if hasSub ("maxaveragebitrate".data) l then l else l ++ suffix

/-- The inner loop of `setAudioBitrate`: find the first following line
starting with `a=fmtp:<pt>`, apply `updateFmtp` to it, and stop. -/
def applyFmtp (pt suffix : List Char) : List (List Char) → List (List Char)
  | [] => []
  | l :: ls =>
    if ("a=fmtp:".data ++ pt).isPrefixOf l then updateFmtp suffix l :: ls
    else l :: applyFmtp pt suffix ls

/-- The per-line mutation step: when the line contains `opus/48000` and
the rtpmap pattern captures a payload type, mutate the tail of the line
array with `applyFmtp`; otherwise leave it as is. -/
def mutateTail (suffix l : List Char) (ls : List (List Char)) : List (List Char) :=
  if hasSub ("opus/48000".data) l then
    match findPt l with
    | some pt => applyFmtp pt suffix ls
    | none => ls
  else ls

/-- The index loop of `setAudioBitrate` over the line array. The fuel
argument is the number of indices left to visit; mutation never changes
the array length, so `processLines` below seeds it with the list
length. -/
def processAux (bitrate : Nat) (suffix : List Char) :
    Nat → List (List Char) → List (List Char)
  | _, [] => []
  | 0, _ :: _ => []
  | fuel + 1, l :: ls =>
    (l :: (if ("m=audio".data).isPrefixOf l then [("b=TIAS:".data ++ natChars bitrate)] else []))
      ++ processAux bitrate suffix fuel (mutateTail suffix l ls)

/-- The whole line scan of `setAudioBitrate` on a split SDP. -/
def processLines (bitrate : Nat) (suffix : List Char) (ls : List (List Char)) :
    List (List Char) :=
  processAux bitrate suffix ls.length ls

/-- JavaScript `sdp.split("\r\n")`: split at every (non-overlapping,
leftmost-first) occurrence of the two-character CRLF separator. -/
def splitCRLF : List Char → List (List Char)
  | '\r' :: '\n' :: rest => [] :: splitCRLF rest
  | c :: rest =>
    match splitCRLF rest with
    | [] => [[c]]
    | l :: ls => (c :: l) :: ls
  | [] => [[]]

/-- JavaScript `result.join("\r\n")`. -/
def joinCRLF : List (List Char) → List Char
  | [] => []
  | [l] => l
  | l :: ls => l ++ '\r' :: '\n' :: joinCRLF ls

/-- `setAudioBitrate` (client script lines 631–666): split on CRLF,
scan and rewrite the lines, join back. `sampleRate` stands for the
global `CONFIG.quality[selectedQuality].sampleRate` the source reads. -/
def setAudioBitrate (sdp : String) (bitrate sampleRate : Nat) : String :=
  String.mk (joinCRLF (processLines bitrate (fmtpSuffix bitrate sampleRate) (splitCRLF sdp.data)))

/-! ## Predicates used to analyse the rewrite

`noCRLF` says a line contains no CRLF separator (so joining and
re-splitting recovers it); `lineEvolves` relates a line to its possible
fate across one scan (unchanged, or suffixed once through the fmtp
mutation); `fmtpSettled` says the first `a=fmtp:<pt>` line, if any,
already carries `maxaveragebitrate`; `scanSettled` says every mutation
step of a scan over the list is a no-op; `NoAudioLines` says no line is
an audio media-line. -/

def noCRLF : List Char → Bool
  | [] => true
  | [_] => true
  | a :: b :: rest => !(a = '\r' && b = '\n') && noCRLF (b :: rest)

def lineEvolves (S a b : List Char) : Prop :=
  b = a ∨ (b = a ++ S ∧ ("a=fmtp:".data).isPrefixOf a = true ∧
    hasSub ("maxaveragebitrate".data) a = false)

def fmtpSettled (pt : List Char) : List (List Char) → Prop
  | [] => True
  | l :: ls =>
    if ("a=fmtp:".data ++ pt).isPrefixOf l then hasSub ("maxaveragebitrate".data) l = true
    else fmtpSettled pt ls

def scanSettled (S : List Char) : List (List Char) → Prop
  | [] => True
  | l :: ls => mutateTail S l ls = ls ∧ scanSettled S ls

def NoAudioLines (ls : List (List Char)) : Prop :=
  ∀ l ∈ ls, ("m=audio".data).isPrefixOf l = false

/-! ## Association-list lemmas -/

theorem lookupKey_setEntry_self {β : Type} (k : String) (v : β) (m : List (String × β)) :
    lookupKey k (setEntry k v m) = some v := by
  induction m with
  | nil => simp [setEntry, lookupKey]
  | cons p ps ih =>
    by_cases h : p.1 = k
    · simp [setEntry, lookupKey, h]
    · simp [setEntry, lookupKey, h, ih]

theorem lookupKey_removeKey_self {β : Type} (k : String) (m : List (String × β)) :
    lookupKey k (removeKey k m) = none := by
  induction m with
  | nil => simp [removeKey, lookupKey]
  | cons p ps ih =>
    by_cases h : p.1 = k
    · simp [removeKey, h, ih]
    · simp [removeKey, lookupKey, h, ih]

theorem mem_setEntry {β : Type} {p : String × β} {k : String} {v : β}
    {m : List (String × β)} (hp : p ∈ setEntry k v m) : p = (k, v) ∨ p ∈ m := by
  induction m with
  | nil => simpa [setEntry] using hp
  | cons q qs ih =>
    by_cases h : q.1 = k
    · rcases (by simpa [setEntry, h] using hp : p = (k, v) ∨ p ∈ qs) with h1 | h1
      · exact Or.inl h1
      · exact Or.inr (List.mem_cons_of_mem _ h1)
    · rcases (by simpa [setEntry, h] using hp : p = q ∨ p ∈ setEntry k v qs) with h1 | h1
      · exact Or.inr (h1 ▸ List.mem_cons_self _ _)
      · rcases ih h1 with h2 | h2
        · exact Or.inl h2
        · exact Or.inr (List.mem_cons_of_mem _ h2)

theorem mem_removeKey {β : Type} {p : String × β} {k : String}
    {m : List (String × β)} (hp : p ∈ removeKey k m) : p ∈ m ∧ p.1 ≠ k := by
  induction m with
  | nil => simpa [removeKey] using hp
  | cons q qs ih =>
    by_cases h : q.1 = k
    · rcases ih (by simpa [removeKey, h] using hp) with ⟨h1, h2⟩
      exact ⟨List.mem_cons_of_mem _ h1, h2⟩
    · rcases (by simpa [removeKey, h] using hp : p = q ∨ p ∈ removeKey k qs) with h1 | h1
      · exact ⟨h1 ▸ List.mem_cons_self _ _, h1 ▸ h⟩
      · rcases ih h1 with ⟨h2, h3⟩
        exact ⟨List.mem_cons_of_mem _ h2, h3⟩

theorem setEntry_append_fresh {β : Type} {k : String} {m : List (String × β)} (v w : β)
    (h : lookupKey k m = none) : setEntry k v (m ++ [(k, w)]) = m ++ [(k, v)] := by
  induction m with
  | nil => simp [setEntry]
  | cons p ps ih =>
    have h1 : p.1 ≠ k := by
      intro he
      simp [lookupKey, he] at h
    have h2 : lookupKey k ps = none := by
      simpa [lookupKey, h1] using h
    simp [setEntry, h1, ih h2]

theorem hasElem_iff {k : String} {l : List String} : hasElem k l = true ↔ k ∈ l := by
  induction l with
  | nil => simp [hasElem]
  | cons x xs ih =>
    simp only [hasElem, Bool.or_eq_true, decide_eq_true_eq, ih, List.mem_cons]
    constructor
    · rintro (h | h)
      · exact Or.inl h.symm
      · exact Or.inr h
    · rintro (h | h)
      · exact Or.inl h.symm
      · exact Or.inr h

theorem addKey_ne_nil (k : String) (l : List String) : addKey k l ≠ [] := by
  unfold addKey
  by_cases h : hasElem k l = true
  · cases l with
    | nil => simp [hasElem] at h
    | cons x xs => simp [h]
  · simp [Bool.not_eq_true] at h
    simp [h]

theorem addKey_of_not_mem {k : String} {l : List String} (h : k ∉ l) :
    addKey k l = l ++ [k] := by
  unfold addKey
  rw [if_neg]
  simp only [hasElem_iff]
  exact h

/-! ## Concrete states used by the witness theorems -/

/-- A small concrete server state: channel `room1` with member `A`;
connections `A` and `B` tracked; `B` in no channel yet. -/
def sampleState : ServerState :=
  { channels := [("room1", ["A"])],
    socketChannels := [("A", ["room1"]), ("B", [])],
    sockets := ["A", "B"],
    usernames := [("A", "alice")] }

/-! ## Relay-hub theorems -/

/-- Claim C4: relaying a candidate or a descriptor to an untracked
identifier changes no state and emits nothing; relaying to a tracked
identifier changes no state and forwards the payload verbatim, once,
annotated with the sender's identifier. -/
theorem relay_drops_unknown_and_forwards_verbatim
    (s : ServerState) (sid peer_id payload : String) :
    ((relayICECandidateOp s sid peer_id payload).1 = s ∧
      (relaySessionDescriptionOp s sid peer_id payload).1 = s) ∧
    (hasElem peer_id s.sockets = false →
      (relayICECandidateOp s sid peer_id payload).2 = [] ∧
      (relaySessionDescriptionOp s sid peer_id payload).2 = []) ∧
    (hasElem peer_id s.sockets = true →
      (relayICECandidateOp s sid peer_id payload).2 =
        [(peer_id, SigEvent.iceCandidate sid payload)] ∧
      (relaySessionDescriptionOp s sid peer_id payload).2 =
        [(peer_id, SigEvent.sessionDescription sid payload)]) := by
  unfold relayICECandidateOp relaySessionDescriptionOp
  by_cases h : hasElem peer_id s.sockets = true
  · simp [h]
  · simp only [Bool.not_eq_true] at h
    simp [h]

/-- Witness for C4 at a concrete state: relaying to the untracked id
`Z` emits nothing and leaves the state unchanged. -/
theorem relay_drops_unknown_witness :
    (relayICECandidateOp sampleState "A" "Z" "cand").1 = sampleState ∧
    (relayICECandidateOp sampleState "A" "Z" "cand").2 = [] := by
  have h := relay_drops_unknown_and_forwards_verbatim sampleState "A" "Z" "cand"
  exact ⟨h.1.1, (h.2.1 (by decide)).1⟩

/-- Claim C5: a join by a connection already a member of the channel
(the channel is in its `socket.channels` map) leaves the whole server
state unchanged and emits no events. -/
theorem join_again_noop (s : ServerState) (sid channel : String) (u : Option String)
    (h : hasElem channel (sockChansOf s sid) = true) :
    joinOp s sid channel u = (s, []) := by
  unfold joinOp
  by_cases hc : channel = ""
  · simp [hc]
  · simp [hc, h]

/-- Witness for C5: `A` joining `room1` again is a no-op. -/
theorem join_again_noop_witness :
    hasElem "room1" (sockChansOf sampleState "A") = true ∧
    joinOp sampleState "A" "room1" none = (sampleState, []) :=
  ⟨by decide, join_again_noop sampleState "A" "room1" none (by decide)⟩

/-- Accumulator form of the spec-side fold: folding the leave step from
any accumulator equals `partAll` with the events prepended. -/
theorem foldl_part_eq_partAll (sid : String) :
    ∀ (ls : List String) (s : ServerState) (acc : List (String × SigEvent)),
      ls.foldl (fun acc ch =>
        let r1 := partOp acc.1 sid ch
        (r1.1, acc.2 ++ r1.2)) (s, acc) =
      ((partAll s sid ls).1, acc ++ (partAll s sid ls).2) := by
  intro ls
  induction ls with
  | nil => intro s acc; simp [partAll]
  | cons ch rest ih =>
    intro s acc
    simp only [List.foldl_cons, partAll, ih]
    simp

/-- Claim C8: `disconnect` coincides — in resulting state and in the
emitted event sequence — with leaving every channel the connection
belongs to, one by one in membership order, and then purging the
connection's identity mapping (`sockets` and `usernames` entries). -/
theorem disconnect_is_leave_all_then_purge (s : ServerState) (sid : String) :
    disconnectOp s sid = disconnectSpec s sid := by
  unfold disconnectOp disconnectSpec purgeIdentity
  rw [foldl_part_eq_partAll sid (sockChansOf s sid) s []]
  simp

/-- Claim C9: a `peer appeared` event for an identifier the client
already holds a session for is ignored — the state, including the
stored peer-connection object, is unchanged — and hence processing a
duplicate `addPeer` event is equivalent to processing it once. -/
theorem duplicate_addPeer_ignored (st : ClientState) (pid u u' : String) :
    ((lookupKey pid st.peers).isSome = true → handleAddPeer st pid u = st) ∧
    handleAddPeer (handleAddPeer st pid u) pid u' = handleAddPeer st pid u := by
  constructor
  · intro h
    unfold handleAddPeer
    simp [h]
  · by_cases h : (lookupKey pid st.peers).isSome = true
    · have h1 : handleAddPeer st pid u = st := by unfold handleAddPeer; simp [h]
      have h2 : handleAddPeer st pid u' = st := by unfold handleAddPeer; simp [h]
      rw [h1, h2]
    · have h1 : handleAddPeer st pid u =
        { st with
          peers := setEntry pid
            { iceCandidatePoolSize := 2, bundlePolicy := "max-bundle",
              rtcpMuxPolicy := "require",
              tracks := st.localStreamTracks.getD [] } st.peers,
          peerUI := addPeerToUI pid (if u = "" then pid.take 6 else u) st.peerUI } := by
        unfold handleAddPeer
        simp [h]
      rw [h1]
      unfold handleAddPeer
      simp [lookupKey_setEntry_self]

/-- Witness for C9: a duplicate `addPeer` for `P` at a concrete client
state with one held session is ignored. -/
theorem duplicate_addPeer_ignored_witness :
    (lookupKey "P"
      ({ peers := [("P", ⟨2, "max-bundle", "require", []⟩)],
         peerUI := [("P", "pat")], localStreamTracks := none } : ClientState).peers).isSome = true ∧
    handleAddPeer
      { peers := [("P", ⟨2, "max-bundle", "require", []⟩)],
        peerUI := [("P", "pat")], localStreamTracks := none } "P" "pat2" =
      { peers := [("P", ⟨2, "max-bundle", "require", []⟩)],
        peerUI := [("P", "pat")], localStreamTracks := none } :=
  ⟨by decide,
    (duplicate_addPeer_ignored
      { peers := [("P", ⟨2, "max-bundle", "require", []⟩)],
        peerUI := [("P", "pat")], localStreamTracks := none } "P" "pat2" "x").1 (by decide)⟩

/-- Claim C6: a leave by a member removes the membership and emits, for
each remaining member in roster order, a `removePeer` naming the leaver
to that member and a `removePeer` naming that member to the leaver; a
leave by a non-member changes nothing and emits nothing. -/
theorem part_notifies_both_sides (s : ServerState) (sid channel : String) :
    (hasElem channel (sockChansOf s sid) = false → partOp s sid channel = (s, [])) ∧
    (hasElem channel (sockChansOf s sid) = true →
      (partOp s sid channel).2 =
        (removeElem sid (rosterOf s channel)).flatMap (fun id =>
          [(id, SigEvent.removePeer sid), (sid, SigEvent.removePeer id)]) ∧
      (∀ id ∈ removeElem sid (rosterOf s channel),
        (id, SigEvent.removePeer sid) ∈ (partOp s sid channel).2 ∧
        (sid, SigEvent.removePeer id) ∈ (partOp s sid channel).2) ∧
      sockChansOf (partOp s sid channel).1 sid = removeElem channel (sockChansOf s sid) ∧
      lookupKey channel (partOp s sid channel).1.channels =
        (if removeElem sid (rosterOf s channel) = [] then none
         else some (removeElem sid (rosterOf s channel)))) := by
  constructor
  · intro h
    unfold partOp
    simp [h]
  · intro h
    have hev : (partOp s sid channel).2 =
        (removeElem sid (rosterOf s channel)).flatMap (fun id =>
          [(id, SigEvent.removePeer sid), (sid, SigEvent.removePeer id)]) := by
      unfold partOp
      simp [h]
    refine ⟨hev, ?_, ?_, ?_⟩
    · intro id hid
      rw [hev]
      constructor
      · exact List.mem_flatMap.mpr ⟨id, hid, by simp⟩
      · exact List.mem_flatMap.mpr ⟨id, hid, by simp⟩
    · unfold partOp
      simp only [h, Bool.true_eq_false, if_neg, ite_false]
      unfold sockChansOf
      simp [lookupKey_setEntry_self]
    · unfold partOp
      simp only [h, Bool.true_eq_false, if_neg, ite_false]
      by_cases hr : removeElem sid (rosterOf s channel) = []
      · simp [hr, lookupKey_removeKey_self]
      · simp [hr, lookupKey_setEntry_self]

/-- Witness for C6: `A` leaving `room1` in the sample state (it is the
only member) emits nothing to others, clears its membership and deletes
the channel. -/
theorem part_notifies_both_sides_witness :
    hasElem "room1" (sockChansOf sampleState "A") = true ∧
    (partOp sampleState "A" "room1").2 = [] ∧
    sockChansOf (partOp sampleState "A" "room1").1 "A" = [] ∧
    lookupKey "room1" (partOp sampleState "A" "room1").1.channels = none := by
  have h := (part_notifies_both_sides sampleState "A" "room1").2 (by decide)
  refine ⟨by decide, h.1.trans (by decide), ?_, ?_⟩
  · exact h.2.2.1.trans (by decide)
  · exact h.2.2.2.trans (by decide)

/-- Claim C10: a chat message to an existing channel is broadcast to
every current member, the sender included (the sender gets an echo),
while mute-status and speaking-status broadcasts go to every member
except the sender. -/
theorem chat_echoes_status_excludes_sender
    (s : ServerState) (sid channel msg : String) (ts : Nat) (m spk : Bool)
    (R : List String) (hch : channel ≠ "") (hR : lookupKey channel s.channels = some R) :
    (chatMessageOp s sid channel msg ts).2 =
      R.map (fun id => (id, SigEvent.chatMessage sid (usernameOf s.usernames sid) msg ts)) ∧
    (sid ∈ R →
      (sid, SigEvent.chatMessage sid (usernameOf s.usernames sid) msg ts) ∈
        (chatMessageOp s sid channel msg ts).2) ∧
    (muteStatusOp s sid channel m).2 =
      (R.filter (fun id => id ≠ sid)).map (fun id => (id, SigEvent.peerMuteStatus sid m)) ∧
    (∀ e, (sid, e) ∉ (muteStatusOp s sid channel m).2) ∧
    (∀ id ∈ R, id ≠ sid →
      (id, SigEvent.peerMuteStatus sid m) ∈ (muteStatusOp s sid channel m).2) ∧
    (speakingStatusOp s sid channel spk).2 =
      (R.filter (fun id => id ≠ sid)).map (fun id => (id, SigEvent.peerSpeakingStatus sid spk)) ∧
    (∀ e, (sid, e) ∉ (speakingStatusOp s sid channel spk).2) ∧
    (∀ id ∈ R, id ≠ sid →
      (id, SigEvent.peerSpeakingStatus sid spk) ∈ (speakingStatusOp s sid channel spk).2) := by
  have hchat : (chatMessageOp s sid channel msg ts).2 =
      R.map (fun id => (id, SigEvent.chatMessage sid (usernameOf s.usernames sid) msg ts)) := by
    unfold chatMessageOp
    simp [hch, hR]
  have hmute : (muteStatusOp s sid channel m).2 =
      (R.filter (fun id => id ≠ sid)).map (fun id => (id, SigEvent.peerMuteStatus sid m)) := by
    unfold muteStatusOp
    simp [hch, hR]
  have hspk : (speakingStatusOp s sid channel spk).2 =
      (R.filter (fun id => id ≠ sid)).map (fun id => (id, SigEvent.peerSpeakingStatus sid spk)) := by
    unfold speakingStatusOp
    simp [hch, hR]
  refine ⟨hchat, ?_, hmute, ?_, ?_, hspk, ?_, ?_⟩
  · intro hs
    rw [hchat]
    exact List.mem_map.mpr ⟨sid, hs, rfl⟩
  · intro e he
    rw [hmute] at he
    rcases List.mem_map.mp he with ⟨id, hid, hpair⟩
    have : id ≠ sid := by simpa using (List.mem_filter.mp hid).2
    exact this (congrArg Prod.fst hpair)
  · intro id hid hne
    rw [hmute]
    exact List.mem_map.mpr ⟨id, List.mem_filter.mpr ⟨hid, by simpa using hne⟩, rfl⟩
  · intro e he
    rw [hspk] at he
    rcases List.mem_map.mp he with ⟨id, hid, hpair⟩
    have : id ≠ sid := by simpa using (List.mem_filter.mp hid).2
    exact this (congrArg Prod.fst hpair)
  · intro id hid hne
    rw [hspk]
    exact List.mem_map.mpr ⟨id, List.mem_filter.mpr ⟨hid, by simpa using hne⟩, rfl⟩

/-- Witness for C10 in a two-member channel: the sender `A` gets the
chat echo but receives neither status broadcast. -/
theorem chat_echoes_status_excludes_sender_witness :
    (chatMessageOp
      { sampleState with channels := [("room1", ["A", "B"])] } "A" "room1" "hi" 7).2 =
      [("A", SigEvent.chatMessage "A" "alice" "hi" 7),
       ("B", SigEvent.chatMessage "A" "alice" "hi" 7)] ∧
    (muteStatusOp
      { sampleState with channels := [("room1", ["A", "B"])] } "A" "room1" true).2 =
      [("B", SigEvent.peerMuteStatus "A" true)] := by
  have h := chat_echoes_status_excludes_sender
    { sampleState with channels := [("room1", ["A", "B"])] } "A" "room1" "hi" 7 true false
    ["A", "B"] (by decide) (by decide)
  exact ⟨h.1.trans (by decide), h.2.2.1.trans (by decide)⟩

/-- Claim C1: a join into a channel with existing roster `R` (the
newcomer not among them) emits, per existing member in roster order, an
`addPeer` for the newcomer with `should_create_offer = false` to that
member and an `addPeer` for that member with `should_create_offer =
true` to the newcomer, followed by the `userList`; consequently no
pre-existing member ever receives `should_create_offer = true` for the
newcomer, and the newcomer never receives `should_create_offer =
false`. -/
theorem join_initiator_asymmetry
    (s : ServerState) (sid channel : String) (u : Option String) (R : List String)
    (hch : channel ≠ "")
    (hguard : hasElem channel (sockChansOf s sid) = false)
    (hR : lookupKey channel s.channels = some R)
    (hsid : sid ∉ R) :
    (joinOp s sid channel u).2 =
      R.flatMap (fun id =>
        [(id, SigEvent.addPeer sid (usernameOf (joinUsernames s sid u) sid) false),
         (sid, SigEvent.addPeer id (usernameOf (joinUsernames s sid u) id) true)]) ++
      [(sid, SigEvent.userList ((R ++ [sid]).map
          (fun id => (id, usernameOf (joinUsernames s sid u) id))))] ∧
    (∀ mem ∈ R, ∀ un, (mem, SigEvent.addPeer sid un true) ∉ (joinOp s sid channel u).2) ∧
    (∀ pid un, (sid, SigEvent.addPeer pid un false) ∉ (joinOp s sid channel u).2) := by
  have hev : (joinOp s sid channel u).2 =
      R.flatMap (fun id =>
        [(id, SigEvent.addPeer sid (usernameOf (joinUsernames s sid u) sid) false),
         (sid, SigEvent.addPeer id (usernameOf (joinUsernames s sid u) id) true)]) ++
      [(sid, SigEvent.userList ((R ++ [sid]).map
          (fun id => (id, usernameOf (joinUsernames s sid u) id))))] := by
    unfold joinOp
    simp [hch, hguard, hR, addKey_of_not_mem hsid]
  refine ⟨hev, ?_, ?_⟩
  · intro mem hmem un hin
    rw [hev] at hin
    rcases List.mem_append.mp hin with hin | hin
    · rcases List.mem_flatMap.mp hin with ⟨id, hid, hin⟩
      simp only [List.mem_cons, List.mem_singleton, Prod.mk.injEq,
        SigEvent.addPeer.injEq, List.not_mem_nil, or_false] at hin
      rcases hin with ⟨_, _, _, hb⟩ | ⟨_, hpid, _, _⟩
      · exact absurd hb (by simp)
      · exact hsid (hpid ▸ hid)
    · simp at hin
  · intro pid un hin
    rw [hev] at hin
    rcases List.mem_append.mp hin with hin | hin
    · rcases List.mem_flatMap.mp hin with ⟨id, hid, hin⟩
      simp only [List.mem_cons, List.mem_singleton, Prod.mk.injEq,
        SigEvent.addPeer.injEq, List.not_mem_nil, or_false] at hin
      rcases hin with ⟨hfst, _, _, _⟩ | ⟨_, _, _, hb⟩
      · exact hsid (hfst ▸ hid)
      · exact absurd hb (by simp)
    · simp at hin

/-- Witness for C1: `B` joining `room1` (existing member `A`): `A` gets
`should_create_offer = false` for `B`, `B` gets `should_create_offer =
true` for `A`. -/
theorem join_initiator_asymmetry_witness :
    (joinOp sampleState "B" "room1" none).2 =
      [("A", SigEvent.addPeer "B" "B" false),
       ("B", SigEvent.addPeer "A" "alice" true),
       ("B", SigEvent.userList [("A", "alice"), ("B", "B")])] := by
  have h := join_initiator_asymmetry sampleState "B" "room1" none ["A"]
    (by decide) (by decide) (by decide) (by decide)
  exact h.1.trans (by decide)

theorem lookupKey_append_none {β : Type} {k : String} {m : List (String × β)}
    (h : lookupKey k m = none) (l : List (String × β)) :
    lookupKey k (m ++ l) = lookupKey k l := by
  induction m with
  | nil => simp
  | cons p ps ih =>
    have h1 : p.1 ≠ k := by
      intro he
      simp [lookupKey, he] at h
    have h2 : lookupKey k ps = none := by simpa [lookupKey, h1] using h
    simp [lookupKey, h1, ih h2]

theorem joinOp_channelsNonempty (s : ServerState) (sid channel : String) (u : Option String)
    (h : ChannelsNonempty s) : ChannelsNonempty (joinOp s sid channel u).1 := by
  unfold joinOp
  by_cases hch : channel = ""
  · simpa [hch] using h
  · by_cases hg : hasElem channel (sockChansOf s sid) = true
    · simpa [hch, hg] using h
    · rw [Bool.not_eq_true] at hg
      cases hlk : lookupKey channel s.channels with
      | some R =>
        simp only [hch, hg, hlk, Option.isSome_some, if_true, if_neg, ite_true,
          Bool.false_eq_true, ite_false, Option.getD_some]
        intro p hp
        rcases mem_setEntry hp with hp1 | hp1
        · rw [hp1]
          exact addKey_ne_nil sid R
        · exact h p hp1
      | none =>
        have hlk2 : lookupKey channel (s.channels ++ [(channel, [])]) = some [] := by
          rw [lookupKey_append_none hlk]
          simp [lookupKey]
        simp only [hch, hg, hlk, Option.isSome_none, Bool.false_eq_true, ite_false,
          if_neg, hlk2, Option.getD_some]
        rw [setEntry_append_fresh _ _ hlk]
        intro p hp
        rcases List.mem_append.mp hp with hp1 | hp1
        · exact h p hp1
        · rcases List.mem_singleton.mp hp1 with rfl
          exact addKey_ne_nil sid []

theorem partOp_channelsNonempty (s : ServerState) (sid channel : String)
    (h : ChannelsNonempty s) : ChannelsNonempty (partOp s sid channel).1 := by
  unfold partOp
  by_cases hg : hasElem channel (sockChansOf s sid) = false
  · simpa [hg] using h
  · rw [Bool.not_eq_false] at hg
    by_cases hr : removeElem sid (rosterOf s channel) = []
    · simp only [hg, Bool.true_eq_false, ite_false, if_neg, hr, ite_true]
      intro p hp
      rcases mem_removeKey hp with ⟨hp1, hp2⟩
      rcases mem_setEntry hp1 with hp3 | hp3
      · exact absurd (congrArg Prod.fst hp3) hp2
      · exact h p hp3
    · simp only [hg, Bool.true_eq_false, ite_false, if_neg, hr]
      intro p hp
      rcases mem_setEntry hp with hp1 | hp1
      · rw [hp1]
        exact hr
      · exact h p hp1

theorem partAll_channelsNonempty (sid : String) :
    ∀ (ls : List String) (s : ServerState), ChannelsNonempty s →
      ChannelsNonempty (partAll s sid ls).1 := by
  intro ls
  induction ls with
  | nil => intro s h; simpa [partAll] using h
  | cons ch rest ih =>
    intro s h
    simp only [partAll]
    exact ih _ (partOp_channelsNonempty s sid ch h)

/-- Claim C7: every complete server operation preserves the invariant
that every registered channel has at least one member (channels are
created on first join, their rosters only ever hold joiners, and a
roster emptied by a leave is deleted at once; relays and broadcasts
never touch the registry). -/
theorem channels_never_empty
    (s : ServerState) (h : ChannelsNonempty s)
    (sid channel pid msg payload : String) (u : Option String) (ts : Nat) (b1 b2 : Bool) :
    ChannelsNonempty (joinOp s sid channel u).1 ∧
    ChannelsNonempty (partOp s sid channel).1 ∧
    ChannelsNonempty (disconnectOp s sid).1 ∧
    ChannelsNonempty (relayICECandidateOp s sid pid payload).1 ∧
    ChannelsNonempty (relaySessionDescriptionOp s sid pid payload).1 ∧
    ChannelsNonempty (chatMessageOp s sid channel msg ts).1 ∧
    ChannelsNonempty (muteStatusOp s sid channel b1).1 ∧
    ChannelsNonempty (speakingStatusOp s sid channel b2).1 := by
  refine ⟨joinOp_channelsNonempty s sid channel u h,
    partOp_channelsNonempty s sid channel h, ?_, ?_, ?_, ?_, ?_, ?_⟩
  · unfold disconnectOp
    exact partAll_channelsNonempty sid (sockChansOf s sid) s h
  · unfold relayICECandidateOp
    by_cases hp : hasElem pid s.sockets = true <;> simp [hp, h]
  · unfold relaySessionDescriptionOp
    by_cases hp : hasElem pid s.sockets = true <;> simp [hp, h]
  · unfold chatMessageOp
    by_cases hch : channel = ""
    · simpa [hch] using h
    · cases hlk : lookupKey channel s.channels <;> simp [hch, hlk, h]
  · unfold muteStatusOp
    by_cases hch : channel = ""
    · simpa [hch] using h
    · cases hlk : lookupKey channel s.channels <;> simp [hch, hlk, h]
  · unfold speakingStatusOp
    by_cases hch : channel = ""
    · simpa [hch] using h
    · cases hlk : lookupKey channel s.channels <;> simp [hch, hlk, h]

/-- Witness for C7: at the sample state, the invariant holds and is
preserved by the leave of the sole member of `room1` (which deletes the
channel) and by a fresh join. -/
theorem channels_never_empty_witness :
    ChannelsNonempty sampleState ∧
    ChannelsNonempty (partOp sampleState "A" "room1").1 ∧
    ChannelsNonempty (joinOp sampleState "B" "lobby" none).1 := by
  have hinv : ChannelsNonempty sampleState := by
    intro p hp
    simp only [sampleState, List.mem_singleton] at hp
    rw [hp]
    simp
  have h := channels_never_empty sampleState hinv "A" "room1" "B" "m" "p" none 0 false false
  have h2 := channels_never_empty sampleState hinv "B" "lobby" "A" "m" "p" none 0 false false
  exact ⟨hinv, h.2.1, h2.1⟩

/-! ## SDP split/join lemmas -/

theorem splitCRLF_ne_nil (l : List Char) : splitCRLF l ≠ [] := by
  induction l using splitCRLF.induct <;> simp_all [splitCRLF]

theorem joinCRLF_splitCRLF (l : List Char) : joinCRLF (splitCRLF l) = l := by
  induction l using splitCRLF.induct with
  | case1 rest ih =>
    rw [splitCRLF]
    cases hs : splitCRLF rest with
    | nil => exact absurd hs (splitCRLF_ne_nil rest)
    | cons a as =>
      rw [hs] at ih
      simp only [joinCRLF]
      rw [ih]
      simp
  | case2 c rest h ih ih2 => exact absurd ih (splitCRLF_ne_nil rest)
  | case3 c rest h l0 ls hs ih =>
    rw [splitCRLF]
    · rw [hs]
      rw [hs] at ih
      cases ls with
      | nil =>
        simp only [joinCRLF] at ih ⊢
        rw [ih]
      | cons b bs =>
        simp only [joinCRLF] at ih ⊢
        rw [List.cons_append, ih]
    · exact h
  | case4 => simp [splitCRLF, joinCRLF]

/-- A line that triggers neither rewrite step leaves the tail alone. -/
theorem mutateTail_eq_of_inert {l : List Char} (S : List Char)
    (h : hasSub ("opus/48000".data) l = false ∨ findPt l = none)
    (ls : List (List Char)) : mutateTail S l ls = ls := by
  unfold mutateTail
  rcases h with h | h
  · simp [h]
  · by_cases h3 : hasSub ("opus/48000".data) l = true
    · simp [h3, h]
    · rw [Bool.not_eq_true] at h3
      simp [h3]

/-- The line scan is the identity on a list of lines none of which is
an audio media-line or an Opus-matching line. -/
theorem processAux_id (b : Nat) (S : List Char) :
    ∀ ls : List (List Char),
      (∀ l ∈ ls, ("m=audio".data).isPrefixOf l = false ∧
        (hasSub ("opus/48000".data) l = false ∨ findPt l = none)) →
      processAux b S ls.length ls = ls := by
  intro ls
  induction ls with
  | nil => intro _; rfl
  | cons l ls ih =>
    intro h
    have hl := h l (List.mem_cons_self _ _)
    show processAux b S (ls.length + 1) (l :: ls) = l :: ls
    rw [processAux, mutateTail_eq_of_inert S hl.2,
      ih (fun l' hl' => h l' (List.mem_cons_of_mem _ hl')), hl.1]
    simp

/-- Counterexample to claim C3 as stated: the description
`"m=audio 9 UDP"` has no Opus rtpmap line at all (so the claim's
disjunction holds of it), yet `setAudioBitrate` changes it — the
`b=TIAS` bandwidth line is inserted whenever an audio media-line is
present, matching codec or not. -/
theorem bitrate3_changes_without_codec_cx :
    (∀ l ∈ splitCRLF ("m=audio 9 UDP".data),
      hasSub ("opus/48000".data) l = false ∧ findPt l = none) ∧
    setAudioBitrate "m=audio 9 UDP" 32000 24000 ≠ "m=audio 9 UDP" := by
  decide

/-- Claim C3 (amended): a description with no audio media-line and no
matching Opus rtpmap line is returned unchanged — the transformation
fails open and never rejects. -/
theorem bitrate3_inert_without_audio_and_codec (sdp : String) (b sr : Nat)
    (h : ∀ l ∈ splitCRLF sdp.data, ("m=audio".data).isPrefixOf l = false ∧
      (hasSub ("opus/48000".data) l = false ∨ findPt l = none)) :
    setAudioBitrate sdp b sr = sdp := by
  unfold setAudioBitrate processLines
  rw [processAux_id _ _ _ h, joinCRLF_splitCRLF]

/-- Witness for the amended C3 at a concrete video-only description. -/
theorem bitrate3_inert_witness :
    setAudioBitrate "v=0\r\nm=video 9 UDP/TLS/RTP/SAVPF 96\r\na=rtpmap:96 VP8/90000" 16000 16000 =
      "v=0\r\nm=video 9 UDP/TLS/RTP/SAVPF 96\r\na=rtpmap:96 VP8/90000" :=
  bitrate3_inert_without_audio_and_codec
    "v=0\r\nm=video 9 UDP/TLS/RTP/SAVPF 96\r\na=rtpmap:96 VP8/90000" 16000 16000 (by decide)

/-- Counterexample to claim C2 as stated: applying `setAudioBitrate`
twice to `"m=audio 9 UDP"` inserts the `b=TIAS` bandwidth line twice —
the insertion after the audio media-line carries no presence check. -/
theorem bitrate2_not_idempotent_cx :
    setAudioBitrate "m=audio 9 UDP" 32000 24000 =
      "m=audio 9 UDP\r\nb=TIAS:32000" ∧
    setAudioBitrate (setAudioBitrate "m=audio 9 UDP" 32000 24000) 32000 24000 =
      "m=audio 9 UDP\r\nb=TIAS:32000\r\nb=TIAS:32000" ∧
    setAudioBitrate (setAudioBitrate "m=audio 9 UDP" 32000 24000) 32000 24000 ≠
      setAudioBitrate "m=audio 9 UDP" 32000 24000 := by
  refine ⟨by decide, by decide, by decide⟩

/-! ## Prefix and substring lemmas -/

theorem isPrefixOf_append_right {p a : List Char} (s : List Char)
    (h : p.isPrefixOf a = true) : p.isPrefixOf (a ++ s) = true := by
  rw [List.isPrefixOf_iff_prefix] at h ⊢
  exact h.trans (List.prefix_append a s)

theorem hasSub_append_right {pat a : List Char} (s : List Char)
    (h : hasSub pat a = true) : hasSub pat (a ++ s) = true := by
  induction a with
  | nil =>
    simp only [hasSub, List.isEmpty_iff] at h
    subst h
    cases s with
    | nil => simp [hasSub]
    | cons c cs => simp [hasSub, List.isPrefixOf]
  | cons c cs ih =>
    simp only [hasSub, Bool.or_eq_true] at h
    rcases h with h | h
    · simp only [List.cons_append, hasSub, Bool.or_eq_true]
      exact Or.inl (isPrefixOf_append_right s h)
    · simp only [List.cons_append, hasSub, Bool.or_eq_true]
      exact Or.inr (ih h)

theorem hasSub_append_left {pat s : List Char} (a : List Char)
    (h : hasSub pat s = true) : hasSub pat (a ++ s) = true := by
  induction a with
  | nil => simpa using h
  | cons c cs ih =>
    simp only [List.cons_append, hasSub, Bool.or_eq_true]
    exact Or.inr ih

/-! ## Decimal-rendering lemmas -/

theorem mem_natCharsAux {c : Char} :
    ∀ (fuel n : Nat) (acc : List Char), c ∈ natCharsAux fuel n acc →
      c ∈ acc ∨ ∃ d, c = decDigit d := by
  intro fuel
  induction fuel with
  | zero => intro n acc h; exact Or.inl h
  | succ fuel ih =>
    intro n acc h
    rw [natCharsAux] at h
    by_cases hz : n / 10 = 0
    · rw [if_pos hz] at h
      rcases List.mem_cons.mp h with h | h
      · exact Or.inr ⟨n, h⟩
      · exact Or.inl h
    · rw [if_neg hz] at h
      rcases ih _ _ h with h | h
      · rcases List.mem_cons.mp h with h | h
        · exact Or.inr ⟨n, h⟩
        · exact Or.inl h
      · exact Or.inr h

theorem decDigit_ne_lf (d : Nat) : decDigit d ≠ '\n' := by
  unfold decDigit
  have h : d % 10 < 10 := Nat.mod_lt d (by omega)
  interval_cases h : d % 10 <;> decide

theorem natChars_no_lf (n : Nat) : '\n' ∉ natChars n := by
  intro h
  unfold natChars at h
  rcases mem_natCharsAux _ _ _ h with h | ⟨d, hd⟩
  · simp at h
  · exact decDigit_ne_lf d hd.symm

theorem fmtpSuffix_no_lf (b sr : Nat) : '\n' ∉ fmtpSuffix b sr := by
  unfold fmtpSuffix
  intro h
  simp only [List.mem_append] at h
  rcases h with ((((h | h) | h) | h) | h)
  · revert h; decide
  · exact natChars_no_lf b h
  · revert h; decide
  · exact natChars_no_lf sr h
  · revert h; decide

theorem fmtpSuffix_head (b sr : Nat) : (fmtpSuffix b sr).head? = some ';' := by
  unfold fmtpSuffix
  rfl

theorem hasSub_fmtpSuffix (b sr : Nat) :
    hasSub ("maxaveragebitrate".data) (fmtpSuffix b sr) = true := by
  unfold fmtpSuffix
  have h0 : hasSub ("maxaveragebitrate".data) (";maxaveragebitrate=".data) = true := by decide
  exact hasSub_append_right _ (hasSub_append_right _ (hasSub_append_right _
    (hasSub_append_right _ h0)))

/-! ## CRLF-freedom lemmas -/

theorem noCRLF_cons_cons (a b : Char) (l : List Char) :
    noCRLF (a :: b :: l) = (!(a = '\r' && b = '\n') && noCRLF (b :: l)) := rfl

theorem noCRLF_of_no_lf : ∀ {l : List Char}, '\n' ∉ l → noCRLF l = true := by
  intro l
  induction l with
  | nil => intro _; rfl
  | cons c cs ih =>
    intro h
    cases cs with
    | nil => rfl
    | cons b rest =>
      rw [noCRLF_cons_cons, Bool.and_eq_true]
      have hb : '\n' ∉ b :: rest := fun hc => h (List.mem_cons_of_mem _ hc)
      refine ⟨?_, ih hb⟩
      have : b ≠ '\n' := fun hc => hb (hc ▸ List.mem_cons_self _ _)
      simp [this]

theorem noCRLF_cons_tail : ∀ {a : Char} {l : List Char},
    noCRLF (a :: l) = true → noCRLF l = true := by
  intro a l h
  cases l with
  | nil => rfl
  | cons b rest =>
    rw [noCRLF_cons_cons, Bool.and_eq_true] at h
    exact h.2

theorem noCRLF_append {a : List Char} (s : List Char)
    (ha : noCRLF a = true) (hs : '\n' ∉ s) : noCRLF (a ++ s) = true := by
  induction a with
  | nil => exact noCRLF_of_no_lf hs
  | cons c cs ih =>
    cases cs with
    | nil =>
      cases s with
      | nil => rfl
      | cons d ds =>
        rw [List.singleton_append, noCRLF_cons_cons, Bool.and_eq_true]
        refine ⟨?_, noCRLF_of_no_lf hs⟩
        have hd : d ≠ '\n' := fun hc => hs (hc ▸ List.mem_cons_self _ _)
        simp [hd]
    | cons b bs =>
      rw [List.cons_append, List.cons_append, noCRLF_cons_cons, Bool.and_eq_true]
      rw [noCRLF_cons_cons, Bool.and_eq_true] at ha
      refine ⟨ha.1, ?_⟩
      rw [← List.cons_append]
      exact ih ha.2

theorem splitCRLF_first_char : ∀ (l t : List Char) (ls : List (List Char)),
    splitCRLF l = t :: ls → t ≠ [] → l.head? = t.head? := by
  intro l
  induction l using splitCRLF.induct with
  | case1 rest ih =>
    intro t ls h ht
    rw [splitCRLF] at h
    exact absurd (List.cons.injEq _ _ _ _ ▸ h).1.symm ht
  | case2 c rest h ih => exact absurd ih (splitCRLF_ne_nil rest)
  | case3 c rest h l0 ls0 hs ih =>
    intro t ls hsp ht
    rw [splitCRLF] at hsp
    · rw [hs] at hsp
      have : c :: l0 = t := (List.cons.injEq _ _ _ _ ▸ hsp).1
      rw [← this]
      rfl
    · exact h
  | case4 =>
    intro t ls h ht
    rw [splitCRLF] at h
    exact absurd (List.cons.injEq _ _ _ _ ▸ h).1.symm ht

theorem splitCRLF_noCRLF : ∀ {l : List Char} {p : List Char},
    p ∈ splitCRLF l → noCRLF p = true := by
  intro l
  induction l using splitCRLF.induct with
  | case1 rest ih =>
    intro p hp
    rw [splitCRLF] at hp
    rcases List.mem_cons.mp hp with rfl | hp
    · rfl
    · exact ih hp
  | case2 c rest h ih => exact absurd ih (splitCRLF_ne_nil rest)
  | case3 c rest h l0 ls hs ih =>
    intro p hp
    rw [splitCRLF] at hp
    · rw [hs] at hp
      rcases List.mem_cons.mp hp with rfl | hp
      · have h0 : noCRLF l0 = true := ih (hs ▸ List.mem_cons_self _ _)
        cases l0 with
        | nil => rfl
        | cons d l0t =>
          rw [noCRLF_cons_cons, Bool.and_eq_true]
          refine ⟨?_, h0⟩
          have hd : rest.head? = some d := by
            have := splitCRLF_first_char rest (d :: l0t) ls hs (by simp)
            simpa using this
          have hne : ¬(c = '\r' ∧ d = '\n') := by
            rintro ⟨rfl, rfl⟩
            cases rest with
            | nil => simp at hd
            | cons r0 rt =>
              have : r0 = '\n' := by simpa using hd
              exact h rt rfl (by rw [this])
          by_cases hc : c = '\r'
          · have hd2 : d ≠ '\n' := fun hdn => hne ⟨hc, hdn⟩
            simp [hc, hd2]
          · simp [hc]
      · exact ih (hs ▸ List.mem_cons_of_mem _ hp)
    · exact h
  | case4 =>
    intro p hp
    rw [splitCRLF] at hp
    rcases List.mem_cons.mp hp with rfl | hp
    · rfl
    · simp at hp

theorem splitCRLF_of_noCRLF : ∀ {p : List Char}, noCRLF p = true → splitCRLF p = [p] := by
  intro p
  induction p with
  | nil => intro _; rfl
  | cons c cs ih =>
    intro h
    cases cs with
    | nil =>
      rw [splitCRLF]
      · rfl
      · intro r hc he
        exact List.noConfusion he
    | cons d cs' =>
      rw [noCRLF_cons_cons, Bool.and_eq_true] at h
      rw [splitCRLF]
      · rw [ih h.2]
      · intro rest' hc he
        rcases h with ⟨h1, _⟩
        rw [hc] at h1
        have : d = '\n' := (List.cons.injEq _ _ _ _ ▸ he).1
        rw [this] at h1
        simp at h1

theorem splitCRLF_append_crlf : ∀ {p : List Char}, noCRLF p = true →
    ∀ t, splitCRLF (p ++ '\r' :: '\n' :: t) = p :: splitCRLF t := by
  intro p
  induction p with
  | nil => intro _ t; rfl
  | cons c cs ih =>
    intro h t
    cases cs with
    | nil =>
      rw [List.singleton_append, splitCRLF]
      · rw [splitCRLF]
      · intro r hc he
        have : '\x0d' = '\n' := (List.cons.injEq _ _ _ _ ▸ he).1
        exact absurd this (by decide)
    | cons d cs' =>
      rw [noCRLF_cons_cons, Bool.and_eq_true] at h
      rw [List.cons_append, splitCRLF]
      · rw [ih h.2 t]
      · intro r hc he
        have hd : d = '\n' := by
          rw [List.cons_append] at he
          exact (List.cons.injEq _ _ _ _ ▸ he).1
        rcases h with ⟨h1, _⟩
        rw [hc, hd] at h1
        simp at h1

theorem splitCRLF_joinCRLF : ∀ {ps : List (List Char)}, ps ≠ [] →
    (∀ p ∈ ps, noCRLF p = true) → splitCRLF (joinCRLF ps) = ps := by
  intro ps
  induction ps with
  | nil => intro h _; exact absurd rfl h
  | cons p ps' ih =>
    intro _ hall
    cases ps' with
    | nil =>
      show splitCRLF (joinCRLF [p]) = [p]
      rw [joinCRLF]
      exact splitCRLF_of_noCRLF (hall p (List.mem_cons_self _ _))
    | cons q rest =>
      show splitCRLF (joinCRLF (p :: q :: rest)) = p :: q :: rest
      rw [joinCRLF]
      · rw [splitCRLF_append_crlf (hall p (List.mem_cons_self _ _)),
          ih (by simp) (fun x hx => hall x (List.mem_cons_of_mem _ hx))]
      · simp

/-! ## Scan-step lemmas -/

theorem applyFmtp_length (pt suffix : List Char) :
    ∀ ls : List (List Char), (applyFmtp pt suffix ls).length = ls.length := by
  intro ls
  induction ls with
  | nil => rfl
  | cons l ls ih =>
    rw [applyFmtp]
    by_cases h : ("a=fmtp:".data ++ pt).isPrefixOf l = true
    · rw [if_pos h]
      rfl
    · rw [Bool.not_eq_true] at h
      rw [if_neg (by rw [h]; exact Bool.false_ne_true)]
      simp only [List.length_cons, ih]

theorem mutateTail_length (suffix l : List Char) (ls : List (List Char)) :
    (mutateTail suffix l ls).length = ls.length := by
  unfold mutateTail
  by_cases h : hasSub ("opus/48000".data) l = true
  · rw [if_pos h]
    cases findPt l with
    | none => rfl
    | some pt => exact applyFmtp_length pt suffix ls
  · rw [Bool.not_eq_true] at h
    rw [if_neg (by rw [h]; exact Bool.false_ne_true)]

/-- The one-step unfolding of the line scan: the loop pushes the line,
optionally a `b=TIAS` line, applies the tail mutation and goes on with
one fewer index to visit. -/
theorem processLines_cons (b : Nat) (S l : List Char) (ls : List (List Char)) :
    processLines b S (l :: ls) =
      (l :: (if ("m=audio".data).isPrefixOf l then [("b=TIAS:".data ++ natChars b)] else []))
        ++ processLines b S (mutateTail S l ls) := by
  unfold processLines
  rw [List.length_cons, processAux, mutateTail_length]

theorem findPt_digits : ∀ {l pt : List Char}, findPt l = some pt →
    pt ≠ [] ∧ ∀ c ∈ pt, c.isDigit = true := by
  intro l
  induction l with
  | nil => intro pt h; simp [findPt] at h
  | cons c cs ih =>
    intro pt h
    rw [findPt] at h
    cases hr : rtpmapHere (c :: cs) with
    | none =>
      rw [hr] at h
      exact ih h
    | some ds =>
      rw [hr] at h
      have hds : ds = pt := by simpa using h
      subst hds
      unfold rtpmapHere at hr
      split_ifs at hr with h1 h2 h3
      have heq : List.takeWhile Char.isDigit
          (List.drop ("a=rtpmap:".data).length (c :: cs)) = ds := by
        simpa using hr
      constructor
      · intro hnil
        rw [heq, hnil] at h2
        simp at h2
      · intro x hx
        rw [← heq] at hx
        exact List.mem_takeWhile_imp hx

/-! ## Line-evolution lemmas

One scan maps each line either to itself or — through the fmtp
mutation — to itself with the parameter block appended, and only when
the line starts with `a=fmtp:` and does not yet carry
`maxaveragebitrate`. These lemmas track what that evolution preserves. -/

theorem head?_of_pre {p r : List Char} (h : p <+: r) (hp : p ≠ []) :
    r.head? = p.head? := by
  obtain ⟨t, rfl⟩ := h
  cases p with
  | nil => exact absurd rfl hp
  | cons x xs => rfl

theorem lineEvolves_refl (S a : List Char) : lineEvolves S a a := Or.inl rfl

theorem lineEvolves_maxIn {S a b : List Char} (h : lineEvolves S a b)
    (ha : hasSub ("maxaveragebitrate".data) a = true) :
    hasSub ("maxaveragebitrate".data) b = true := by
  rcases h with rfl | ⟨rfl, _, _⟩
  · exact ha
  · exact hasSub_append_right S ha

theorem lineEvolves_trans {S a b c : List Char}
    (hmax : hasSub ("maxaveragebitrate".data) S = true)
    (h1 : lineEvolves S a b) (h2 : lineEvolves S b c) : lineEvolves S a c := by
  rcases h1 with rfl | ⟨rfl, hf1, hm1⟩
  · exact h2
  · rcases h2 with rfl | ⟨rfl, _, hm2⟩
    · exact Or.inr ⟨rfl, hf1, hm1⟩
    · exact absurd (hasSub_append_left a hmax) (by rw [hm2]; exact Bool.false_ne_true)

theorem lineEvolves_noAudio {S a b : List Char} (h : lineEvolves S a b)
    (ha : ("m=audio".data).isPrefixOf a = false) :
    ("m=audio".data).isPrefixOf b = false := by
  rcases h with rfl | ⟨rfl, hf, _⟩
  · exact ha
  · by_contra hcon
    rw [Bool.not_eq_false, List.isPrefixOf_iff_prefix] at hcon
    rw [List.isPrefixOf_iff_prefix] at hf
    have h1 : (a ++ S).head? = some 'm' :=
      (head?_of_pre hcon (by decide)).trans rfl
    have h2 : a.head? = some 'a' := (head?_of_pre hf (by decide)).trans rfl
    cases a with
    | nil => simp at h2
    | cons x xs =>
      have e1 : x = 'm' := by simpa using h1
      have e2 : x = 'a' := by simpa using h2
      rw [e1] at e2
      exact absurd e2 (by decide)

theorem lineEvolves_noCRLF {S a b : List Char} (h : lineEvolves S a b)
    (hS : '\n' ∉ S) (ha : noCRLF a = true) : noCRLF b = true := by
  rcases h with rfl | ⟨rfl, _, _⟩
  · exact ha
  · exact noCRLF_append S ha hS

theorem lineEvolves_fmtpPt {S a b pt : List Char} (h : lineEvolves S a b)
    (hpt : ∀ c ∈ pt, c.isDigit = true) (hS : S.head? = some ';') :
    ("a=fmtp:".data ++ pt).isPrefixOf b = ("a=fmtp:".data ++ pt).isPrefixOf a := by
  rcases h with rfl | ⟨rfl, hf, _⟩
  · rfl
  · by_cases hp : ("a=fmtp:".data ++ pt).isPrefixOf a = true
    · rw [hp, isPrefixOf_append_right S hp]
    · rw [Bool.not_eq_true] at hp
      rw [hp]
      by_contra hcon
      rw [Bool.not_eq_false, List.isPrefixOf_iff_prefix] at hcon
      rw [List.isPrefixOf_iff_prefix] at hf
      by_cases hlen : ("a=fmtp:".data ++ pt).length ≤ a.length
      · have hpa : ("a=fmtp:".data ++ pt) <+: a :=
          List.prefix_of_prefix_length_le hcon (List.prefix_append a S) hlen
        rw [← List.isPrefixOf_iff_prefix] at hpa
        rw [hpa] at hp
        exact absurd hp (by decide)
      · have hlt : a.length < ("a=fmtp:".data ++ pt).length := Nat.lt_of_not_le hlen
        have hap : a <+: ("a=fmtp:".data ++ pt) :=
          List.prefix_of_prefix_length_le (List.prefix_append a S) hcon (le_of_lt hlt)
        obtain ⟨t', ht'⟩ := hap
        have ht'ne : t' ≠ [] := by
          intro hnil
          rw [hnil, List.append_nil] at ht'
          rw [ht'] at hlt
          exact lt_irrefl _ hlt
        obtain ⟨t2, ht2⟩ := hf
        have hpt2 : t2 ++ t' = pt := by
          have he : "a=fmtp:".data ++ (t2 ++ t') = "a=fmtp:".data ++ pt := by
            rw [← List.append_assoc, ht2, ht']
          exact List.append_cancel_left he
        cases t' with
        | nil => exact absurd rfl ht'ne
        | cons d t'' =>
          have hdpt : d ∈ pt := by
            rw [← hpt2]
            exact List.mem_append_right _ (List.mem_cons_self _ _)
          have hd : d.isDigit = true := hpt d hdpt
          obtain ⟨u, hu⟩ := hcon
          rw [← ht', List.append_assoc] at hu
          have hSu : (d :: t'') ++ u = S := List.append_cancel_left hu
          have hdS : S.head? = some d := by rw [← hSu]; rfl
          rw [hS] at hdS
          have : d = ';' := by simpa using hdS.symm
          rw [this] at hd
          exact absurd hd (by decide)

/-! ## Relating a scan's input and output lines -/

theorem forall2_applyFmtp (S pt : List Char) :
    ∀ ls : List (List Char), List.Forall₂ (lineEvolves S) ls (applyFmtp pt S ls) := by
  intro ls
  induction ls with
  | nil => exact List.Forall₂.nil
  | cons l ls ih =>
    rw [applyFmtp]
    by_cases h : ("a=fmtp:".data ++ pt).isPrefixOf l = true
    · rw [if_pos h]
      refine List.Forall₂.cons ?_ (List.forall₂_same.mpr (fun x _ => lineEvolves_refl S x))
      unfold updateFmtp
      by_cases hm : hasSub ("maxaveragebitrate".data) l = true
      · rw [if_pos hm]
        exact lineEvolves_refl S l
      · rw [Bool.not_eq_true] at hm
        rw [if_neg (by rw [hm]; exact (by decide : (false : Bool) ≠ true))]
        refine Or.inr ⟨rfl, ?_, hm⟩
        rw [List.isPrefixOf_iff_prefix] at h ⊢
        exact (List.prefix_append _ _).trans h
    · rw [Bool.not_eq_true] at h
      rw [if_neg (by rw [h]; exact (by decide : (false : Bool) ≠ true))]
      exact List.Forall₂.cons (lineEvolves_refl S l) ih

theorem forall2_mutateTail (S l : List Char) (ls : List (List Char)) :
    List.Forall₂ (lineEvolves S) ls (mutateTail S l ls) := by
  unfold mutateTail
  by_cases h : hasSub ("opus/48000".data) l = true
  · rw [if_pos h]
    cases findPt l with
    | none => exact List.forall₂_same.mpr (fun x _ => lineEvolves_refl S x)
    | some pt => exact forall2_applyFmtp S pt ls
  · rw [Bool.not_eq_true] at h
    rw [if_neg (by rw [h]; exact (by decide : (false : Bool) ≠ true))]
    exact List.forall₂_same.mpr (fun x _ => lineEvolves_refl S x)

theorem forall2_lineEvolves_comp {S : List Char}
    (hmax : hasSub ("maxaveragebitrate".data) S = true) :
    ∀ {l1 l2 l3 : List (List Char)}, List.Forall₂ (lineEvolves S) l1 l2 →
      List.Forall₂ (lineEvolves S) l2 l3 → List.Forall₂ (lineEvolves S) l1 l3 := by
  intro l1 l2 l3 h12
  induction h12 generalizing l3 with
  | nil =>
    intro h23
    cases h23
    exact List.Forall₂.nil
  | cons hab h12' ih =>
    intro h23
    cases h23 with
    | cons hbc h23' =>
      exact List.Forall₂.cons (lineEvolves_trans hmax hab hbc) (ih h23')

theorem forall2_noAudio {S : List Char} {l1 l2 : List (List Char)}
    (h : List.Forall₂ (lineEvolves S) l1 l2) (h1 : NoAudioLines l1) :
    NoAudioLines l2 := by
  induction h with
  | nil => exact h1
  | cons hab h' ih =>
    intro x hx
    rcases List.mem_cons.mp hx with rfl | hx
    · exact lineEvolves_noAudio hab (h1 _ (List.mem_cons_self _ _))
    · exact ih (fun y hy => h1 y (List.mem_cons_of_mem _ hy)) x hx

theorem forall2_noCRLF {S : List Char} {l1 l2 : List (List Char)}
    (h : List.Forall₂ (lineEvolves S) l1 l2) (hS : '\n' ∉ S)
    (h1 : ∀ p ∈ l1, noCRLF p = true) : ∀ p ∈ l2, noCRLF p = true := by
  induction h with
  | nil => exact h1
  | cons hab h' ih =>
    intro x hx
    rcases List.mem_cons.mp hx with rfl | hx
    · exact lineEvolves_noCRLF hab hS (h1 _ (List.mem_cons_self _ _))
    · exact ih (fun y hy => h1 y (List.mem_cons_of_mem _ hy)) x hx

theorem forall2_fmtpSettled {S pt : List Char} {l1 l2 : List (List Char)}
    (h : List.Forall₂ (lineEvolves S) l1 l2)
    (hpt : ∀ c ∈ pt, c.isDigit = true) (hS : S.head? = some ';')
    (hst : fmtpSettled pt l1) : fmtpSettled pt l2 := by
  induction h with
  | nil => trivial
  | @cons a b t1 t2 hab h' ih =>
    rw [fmtpSettled] at hst ⊢
    rw [lineEvolves_fmtpPt hab hpt hS]
    by_cases hc : ("a=fmtp:".data ++ pt).isPrefixOf a = true
    · rw [if_pos hc] at hst ⊢
      exact lineEvolves_maxIn hab hst
    · rw [Bool.not_eq_true] at hc
      rw [if_neg (by rw [hc]; exact (by decide : (false : Bool) ≠ true))] at hst ⊢
      exact ih hst

/-! ## The fmtp mutation settles, and a settled scan is the identity -/

theorem applyFmtp_settles {S : List Char} (pt : List Char)
    (hmax : hasSub ("maxaveragebitrate".data) S = true) :
    ∀ ls : List (List Char), fmtpSettled pt (applyFmtp pt S ls) := by
  intro ls
  induction ls with
  | nil => trivial
  | cons l ls ih =>
    rw [applyFmtp]
    by_cases h : ("a=fmtp:".data ++ pt).isPrefixOf l = true
    · rw [if_pos h, fmtpSettled]
      by_cases hm : hasSub ("maxaveragebitrate".data) l = true
      · have hu : updateFmtp S l = l := by
          unfold updateFmtp
          rw [if_pos hm]
        rw [hu, if_pos h]
        exact hm
      · rw [Bool.not_eq_true] at hm
        have hu : updateFmtp S l = l ++ S := by
          unfold updateFmtp
          rw [hm]
          rw [if_neg (by decide : ¬((false : Bool) = true))]
        rw [hu, if_pos (isPrefixOf_append_right S h)]
        exact hasSub_append_left l hmax
    · rw [Bool.not_eq_true] at h
      rw [if_neg (by rw [h]; exact (by decide : (false : Bool) ≠ true)), fmtpSettled,
        if_neg (by rw [h]; exact (by decide : (false : Bool) ≠ true))]
      exact ih

theorem applyFmtp_id_of_settled {S pt : List Char} :
    ∀ {ls : List (List Char)}, fmtpSettled pt ls → applyFmtp pt S ls = ls := by
  intro ls
  induction ls with
  | nil => intro _; rfl
  | cons l ls ih =>
    intro h
    rw [fmtpSettled] at h
    rw [applyFmtp]
    by_cases hc : ("a=fmtp:".data ++ pt).isPrefixOf l = true
    · rw [if_pos hc] at h ⊢
      unfold updateFmtp
      rw [if_pos h]
    · rw [Bool.not_eq_true] at hc
      rw [if_neg (by rw [hc]; exact (by decide : (false : Bool) ≠ true))] at h ⊢
      rw [ih h]

/-! ## The whole scan: relation to its input, and stability -/

theorem process_forall2 (b : Nat) {S : List Char}
    (hmax : hasSub ("maxaveragebitrate".data) S = true) :
    ∀ (n : Nat) (ls : List (List Char)), ls.length ≤ n → NoAudioLines ls →
      List.Forall₂ (lineEvolves S) ls (processLines b S ls) := by
  intro n
  induction n with
  | zero =>
    intro ls hlen _
    have hnil : ls = [] := List.length_eq_zero.mp (Nat.le_zero.mp hlen)
    subst hnil
    exact List.Forall₂.nil
  | succ n ih =>
    intro ls hlen hna
    cases ls with
    | nil => exact List.Forall₂.nil
    | cons l ls =>
      rw [processLines_cons, hna l (List.mem_cons_self _ _)]
      simp only [Bool.false_eq_true, if_false, List.cons_append, List.nil_append]
      refine List.Forall₂.cons (lineEvolves_refl S l) ?_
      refine forall2_lineEvolves_comp hmax (forall2_mutateTail S l ls)
        (ih (mutateTail S l ls) ?_ ?_)
      · rw [mutateTail_length]
        exact Nat.le_of_succ_le_succ (by simpa using hlen)
      · exact forall2_noAudio (forall2_mutateTail S l ls)
          (fun y hy => hna y (List.mem_cons_of_mem _ hy))

theorem process_scanSettled (b : Nat) {S : List Char}
    (hmax : hasSub ("maxaveragebitrate".data) S = true) (hS : S.head? = some ';') :
    ∀ (n : Nat) (ls : List (List Char)), ls.length ≤ n → NoAudioLines ls →
      scanSettled S (processLines b S ls) := by
  intro n
  induction n with
  | zero =>
    intro ls hlen _
    have hnil : ls = [] := List.length_eq_zero.mp (Nat.le_zero.mp hlen)
    subst hnil
    trivial
  | succ n ih =>
    intro ls hlen hna
    cases ls with
    | nil => trivial
    | cons l ls =>
      have hlen' : ls.length ≤ n := Nat.le_of_succ_le_succ (by simpa using hlen)
      have hnaTail : NoAudioLines ls := fun y hy => hna y (List.mem_cons_of_mem _ hy)
      have hnaMut : NoAudioLines (mutateTail S l ls) :=
        forall2_noAudio (forall2_mutateTail S l ls) hnaTail
      have hlenMut : (mutateTail S l ls).length ≤ n := by
        rw [mutateTail_length]; exact hlen'
      rw [processLines_cons, hna l (List.mem_cons_self _ _)]
      simp only [Bool.false_eq_true, if_false, List.cons_append, List.nil_append]
      rw [scanSettled]
      refine ⟨?_, ih (mutateTail S l ls) hlenMut hnaMut⟩
      by_cases hop : hasSub ("opus/48000".data) l = true
      · cases hfp : findPt l with
        | none =>
          unfold mutateTail
          rw [if_pos hop, hfp]
        | some pt =>
          have hMutEq : mutateTail S l ls = applyFmtp pt S ls := by
            unfold mutateTail
            rw [if_pos hop, hfp]
          have hdig := findPt_digits hfp
          have h1 : fmtpSettled pt (applyFmtp pt S ls) := applyFmtp_settles pt hmax ls
          have hnaApp : NoAudioLines (applyFmtp pt S ls) := hMutEq ▸ hnaMut
          have hlenApp : (applyFmtp pt S ls).length ≤ n := by
            rw [applyFmtp_length]; exact hlen'
          have h2 : List.Forall₂ (lineEvolves S) (applyFmtp pt S ls)
              (processLines b S (applyFmtp pt S ls)) :=
            process_forall2 b hmax n _ hlenApp hnaApp
          have h3 : fmtpSettled pt (processLines b S (applyFmtp pt S ls)) :=
            forall2_fmtpSettled h2 hdig.2 hS h1
          rw [hMutEq]
          unfold mutateTail
          rw [if_pos hop, hfp]
          exact applyFmtp_id_of_settled h3
      · rw [Bool.not_eq_true] at hop
        unfold mutateTail
        rw [if_neg (by rw [hop]; exact (by decide : (false : Bool) ≠ true))]

theorem process_id_of_scanSettled (b : Nat) (S : List Char) :
    ∀ {ls : List (List Char)}, scanSettled S ls → NoAudioLines ls →
      processLines b S ls = ls := by
  intro ls
  induction ls with
  | nil => intro _ _; rfl
  | cons l ls ih =>
    intro hs hna
    rw [scanSettled] at hs
    rw [processLines_cons, hna l (List.mem_cons_self _ _), hs.1]
    simp only [Bool.false_eq_true, if_false, List.cons_append, List.nil_append]
    rw [ih hs.2 (fun y hy => hna y (List.mem_cons_of_mem _ hy))]

/-- Claim C2 (amended): on a description with no audio media-line,
applying `setAudioBitrate` twice yields the same text as applying it
once — the fmtp parameter block is presence-checked and never
duplicated. (As stated the claim fails: the `b=TIAS` insertion after an
audio media-line carries no presence check, so a second application
duplicates that line.) -/
theorem bitrate2_idempotent_without_audio (sdp : String) (b sr : Nat)
    (h : NoAudioLines (splitCRLF sdp.data)) :
    setAudioBitrate (setAudioBitrate sdp b sr) b sr = setAudioBitrate sdp b sr := by
  have hmax := hasSub_fmtpSuffix b sr
  have hS := fmtpSuffix_head b sr
  have hLF := fmtpSuffix_no_lf b sr
  have hF := process_forall2 b hmax (splitCRLF sdp.data).length (splitCRLF sdp.data) le_rfl h
  have hNA := forall2_noAudio hF h
  have hCR := forall2_noCRLF hF hLF (fun p hp => splitCRLF_noCRLF hp)
  have hScan := process_scanSettled b hmax hS (splitCRLF sdp.data).length
    (splitCRLF sdp.data) le_rfl h
  have hne : processLines b (fmtpSuffix b sr) (splitCRLF sdp.data) ≠ [] := by
    intro h0
    have hl := hF.length_eq
    rw [h0] at hl
    cases hsp : splitCRLF sdp.data with
    | nil => exact splitCRLF_ne_nil sdp.data hsp
    | cons a as =>
      rw [hsp] at hl
      simp at hl
  unfold setAudioBitrate
  rw [show (String.mk (joinCRLF (processLines b (fmtpSuffix b sr)
      (splitCRLF sdp.data)))).data =
      joinCRLF (processLines b (fmtpSuffix b sr) (splitCRLF sdp.data)) from rfl]
  rw [splitCRLF_joinCRLF hne hCR,
    process_id_of_scanSettled b (fmtpSuffix b sr) hScan hNA]

/-- Witness for the amended C2 at an audio-free description carrying an
Opus rtpmap and fmtp line: two applications agree. -/
theorem bitrate2_idempotent_witness :
    NoAudioLines (splitCRLF ("a=rtpmap:111 opus/48000/2\r\na=fmtp:111 minptime=10".data)) ∧
    setAudioBitrate
      (setAudioBitrate "a=rtpmap:111 opus/48000/2\r\na=fmtp:111 minptime=10" 16000 16000)
      16000 16000 =
      setAudioBitrate "a=rtpmap:111 opus/48000/2\r\na=fmtp:111 minptime=10" 16000 16000 :=
  ⟨by unfold NoAudioLines; decide, bitrate2_idempotent_without_audio
    "a=rtpmap:111 opus/48000/2\r\na=fmtp:111 minptime=10" 16000 16000
    (by unfold NoAudioLines; decide)⟩
